import Mathlib

/-!
# Verification of the tag-to-commit attribution tool (`rels`)

Shallow embedding of `src/main.rs`.  Commits are identified by natural
numbers; a repository's ancestry is a function `Nat → List Nat` giving the
ordered parent list of each commit.  The regex engine is abstracted as a
compile function `String → Option (String → List String)` returning, on
success, a matcher that lists every match of the pattern in a message (the
`regex` crate's `find_iter`; `is_match` holds iff that list is nonempty).

Rust `HashMap` state is modelled by association lists where insertion
prepends (lookup takes the first hit, so lookup behaves exactly like
`HashMap::insert` overwriting).  `Vec::pop` removes the *last* element, so
the worklist `Vec` of `get_parent_commits` is modelled as a Lean list whose
*head* is the next element to pop: `Vec::extend(ps)` followed by popping
from the back corresponds to prepending `ps.reverse`.

The walker loop (`while let Some(..) = pop()`) terminates on every acyclic
ancestry but not on arbitrary `Nat → List Nat` graphs, so it is written
with explicit fuel and returns `none` when the fuel runs out before the
worklist empties; `some out` is the value the Rust loop computes.
-/

/-- Depth bookkeeping map of `get_parent_commits` (`depths: HashMap<Oid, usize>`). -/
abbrev DepthMap := List (Nat × Nat)

/-- `depths.get(&id).unwrap_or(&1)` — lookup with default 1 (src line 113). -/
def lookupDepth (depths : DepthMap) (id : Nat) : Nat :=
  match depths.find? (fun p => p.1 == id) with
  | some p => p.2
  | none => 1

/-- `depths.insert(id, d)` — overwriting insert, modelled by prepending. -/
def insertDepth (depths : DepthMap) (id d : Nat) : DepthMap :=
  (id, d) :: depths

/-- `parents.for_each(|p| depths.insert(p.id(), depth + 1))` (src lines 120-122). -/
def insertAll (depths : DepthMap) (ids : List Nat) (d : Nat) : DepthMap :=
  ids.foldl (fun m id => insertDepth m id d) depths

/-- The worklist loop of `get_parent_commits` (src lines 108-128).
The worklist has its next-popped element at the head (see module comment).
Returns `none` iff the fuel is exhausted with a nonempty worklist. -/
def walkAux (par : Nat → List Nat) (maxDepth : Nat) :
    Nat → List Nat → DepthMap → List (Nat × Nat) → Option (List (Nat × Nat))
  | _, [], _, acc => some acc
  | 0, _ :: _, _, _ => none
  | fuel + 1, id :: rest, depths, acc =>
    let d := lookupDepth depths id
    if d > maxDepth then
      walkAux par maxDepth fuel rest depths acc
    else
      walkAux par maxDepth fuel ((par id).reverse ++ rest)
        (insertAll depths (par id) (d + 1)) (acc ++ [(id, d)])

/-- `get_parent_commits` (src lines 95-130): seed the worklist with the start
commit's direct parents, seed every direct parent's depth at 1, then run the
loop.  The `Vec` seed `[p1, …, pk]` popped from the back is the model list
`[pk, …, p1]`. -/
def getParentCommits (par : Nat → List Nat) (start : Nat) (maxDepth fuel : Nat) :
    Option (List (Nat × Nat)) :=
  walkAux par maxDepth fuel (par start).reverse (insertAll [] (par start) 1) []

/-- All commits within `k` parent hops of `a` (including `a` itself at 0 hops). -/
def ball (par : Nat → List Nat) : Nat → Nat → List Nat
  | 0, a => [a]
  | k + 1, a => a :: (par a).flatMap (ball par k)

section WalkerLemmas

/-- `lookupDepth` after a bulk overwrite: ids in the batch read the new value,
everything else is unchanged. -/
theorem lookupDepth_insertAll (ids : List Nat) (depths : DepthMap) (id v : Nat) :
    lookupDepth (insertAll depths ids v) id =
      if id ∈ ids then v else lookupDepth depths id := by
  induction ids generalizing depths with
  | nil => simp [insertAll]
  | cons p ps ih =>
    show lookupDepth (insertAll (insertDepth depths p v) ps v) id = _
    rw [ih]
    by_cases hmem : id ∈ ps
    · simp [hmem]
    · by_cases hp : id = p
      · subst hp
        simp [hmem, insertDepth, lookupDepth]
      · simp [hmem, hp, insertDepth, lookupDepth, Ne.symm hp]

/-- Every value readable from the depth map stays ≥ 1 along the walk:
seeds are 1, overwrites are `d + 1`, and the absent-key default is 1. -/
theorem lookupDepth_pos_insertAll (ids : List Nat) (depths : DepthMap) (v : Nat)
    (hv : 1 ≤ v) (h : ∀ id, 1 ≤ lookupDepth depths id) :
    ∀ id, 1 ≤ lookupDepth (insertAll depths ids v) id := by
  intro id
  rw [lookupDepth_insertAll]
  split
  · exact hv
  · exact h id

/-- Depth-bound invariant of the worklist loop: if every map value is ≥ 1 and
every accumulated entry has depth in `[1, maxDepth]`, the same holds of the
final output. -/
theorem walkAux_depth_inv (par : Nat → List Nat) (maxDepth : Nat) :
    ∀ (fuel : Nat) (wl : List Nat) (depths : DepthMap) (acc out : List (Nat × Nat)),
      (∀ id, 1 ≤ lookupDepth depths id) →
      (∀ p ∈ acc, 1 ≤ p.2 ∧ p.2 ≤ maxDepth) →
      walkAux par maxDepth fuel wl depths acc = some out →
      ∀ p ∈ out, 1 ≤ p.2 ∧ p.2 ≤ maxDepth := by
  intro fuel
  induction fuel with
  | zero =>
    intro wl depths acc out hd hacc hrun
    cases wl with
    | nil =>
      simp only [walkAux, Option.some.injEq] at hrun
      exact hrun ▸ hacc
    | cons id rest => simp [walkAux] at hrun
  | succ f ih =>
    intro wl depths acc out hd hacc hrun
    cases wl with
    | nil =>
      simp only [walkAux, Option.some.injEq] at hrun
      exact hrun ▸ hacc
    | cons id rest =>
      rw [walkAux] at hrun
      by_cases hgt : lookupDepth depths id > maxDepth
      · rw [if_pos hgt] at hrun
        exact ih rest depths acc out hd hacc hrun
      · rw [if_neg hgt] at hrun
        refine ih _ _ _ out ?_ ?_ hrun
        · exact lookupDepth_pos_insertAll _ _ _ (by have := hd id; omega) hd
        · intro p hp
          rcases List.mem_append.mp hp with h1 | h2
          · exact hacc p h1
          · simp only [List.mem_singleton] at h2
            subst h2
            exact ⟨hd id, by omega⟩

end WalkerLemmas

/-- Claim C7: every (commit, depth) entry returned by the Ancestor Walker
satisfies 1 ≤ depth ≤ max_depth; with max_depth = 0 the walker returns the
empty list, and depth 0 is never produced by the walker. -/
theorem walker_depth_bounds (par : Nat → List Nat) (start maxDepth fuel : Nat)
    (out : List (Nat × Nat)) (hrun : getParentCommits par start maxDepth fuel = some out) :
    (∀ p ∈ out, 1 ≤ p.2 ∧ p.2 ≤ maxDepth) ∧ (maxDepth = 0 → out = []) := by
  have hbound : ∀ p ∈ out, 1 ≤ p.2 ∧ p.2 ≤ maxDepth := by
    refine walkAux_depth_inv par maxDepth fuel _ _ [] out ?_ (by simp) hrun
    intro id
    rw [lookupDepth_insertAll]
    split
    · exact le_refl 1
    · simp [lookupDepth]
  refine ⟨hbound, ?_⟩
  intro h0
  subst h0
  cases out with
  | nil => rfl
  | cons p ps =>
    have := hbound p (by simp)
    omega

/-- Witness for `walker_depth_bounds` on a concrete two-commit chain. -/
theorem walker_depth_bounds_witness :
    getParentCommits (fun i => if i = 0 then [1] else []) 0 5 10 = some [(1, 1)] ∧
      ((∀ p ∈ [(1, 1)], 1 ≤ p.2 ∧ p.2 ≤ 5) ∧ ((5 : Nat) = 0 → [(1, 1)] = [])) :=
  ⟨by decide, walker_depth_bounds (fun i => if i = 0 then [1] else []) 0 5 10 [(1, 1)]
    (by decide)⟩

/-- Diamond ancestry used to refute claim C2: commit 3 is a parent of both 1
and 2, which are the two parents of the start commit 0. -/
def diamondPar : Nat → List Nat :=
  fun i => if i = 0 then [1, 2] else if i = 1 then [3] else if i = 2 then [3] else []

/-- Counterexample to claim C2: on the diamond ancestry the walk terminates
and commit 3 appears twice in the output (the walker has no visited set;
each scheduling of an id within the cap is popped and emitted again). -/
theorem walker_emits_duplicates :
    getParentCommits diamondPar 0 10 10 = some [(2, 1), (3, 2), (1, 1), (3, 2)] ∧
      ((getParentCommits diamondPar 0 10 10).getD []).countP (fun p => p.1 == 3) = 2 := by
  constructor
  · decide
  · decide

/-- Ancestry used for claim C3: 0 → 1, 1 → [2, 3], 3 → 2.  Commit 2 is two
hops from 0 (via 1), but the walk at `max_depth = 2` first pops 3 (depth 2),
which overwrites commit 2's recorded depth to 3, so both queued copies of
commit 2 are popped at recorded depth 3 > 2 and discarded. -/
def dropPar : Nat → List Nat :=
  fun i => if i = 0 then [1] else if i = 1 then [2, 3] else if i = 3 then [2] else []

/-- Linear-chain ancestry 0 → 1 → ⋯ → n: commit `i` has the single parent
`i + 1` when `i < n`, and commit `n` is a root. -/
def chainPar (n : Nat) : Nat → List Nat := fun i => if i < n then [i + 1] else []

/-- The tail the chain walk emits when the next popped commit is `i` with
recorded depth `d`. -/
def chainSeg (n maxDepth i d : Nat) : List (Nat × Nat) :=
  if d > maxDepth then []
  else if h : i < n then (i, d) :: chainSeg n maxDepth (i + 1) (d + 1)
  else [(i, d)]
termination_by n - i
decreasing_by omega

/-- On a chain the worklist stays a singleton and the walk runs straight down
the chain: from commit `i` at recorded depth `d` it emits `chainSeg`. -/
theorem walkAux_chain (n maxDepth : Nat) :
    ∀ (fuel i d : Nat) (depths : DepthMap) (acc : List (Nat × Nat)),
      i ≤ n → lookupDepth depths i = d → n + 2 - i ≤ fuel →
      walkAux (chainPar n) maxDepth fuel [i] depths acc =
        some (acc ++ chainSeg n maxDepth i d) := by
  intro fuel
  induction fuel with
  | zero =>
    intro i d depths acc hin hd hfuel
    omega
  | succ f ih =>
    intro i d depths acc hin hd hfuel
    rw [walkAux, hd]
    by_cases hgt : d > maxDepth
    · rw [if_pos hgt, chainSeg, if_pos hgt]
      simp [walkAux]
    · rw [if_neg hgt, chainSeg, if_neg hgt]
      by_cases hlt : i < n
      · rw [dif_pos hlt]
        have hpar : chainPar n i = [i + 1] := by simp [chainPar, hlt]
        rw [hpar]
        have hlook : lookupDepth (insertAll depths [i + 1] (d + 1)) (i + 1) = d + 1 := by
          rw [lookupDepth_insertAll]; simp
        have := ih (i + 1) (d + 1) (insertAll depths [i + 1] (d + 1))
          (acc ++ [(i, d)]) (by omega) hlook (by omega)
        simpa [List.append_assoc] using this
      · rw [dif_neg hlt]
        have hpar : chainPar n i = [] := by simp [chainPar, hlt]
        rw [hpar]
        simp [insertAll, walkAux]

/-- Bounded-recursion form of the `chainSeg` entry description. -/
theorem chainSeg_entries_aux (n maxDepth : Nat) :
    ∀ (k i d : Nat), n - i ≤ k →
      ∀ p ∈ chainSeg n maxDepth i d, i ≤ p.1 ∧ p.2 + i = p.1 + d := by
  intro k
  induction k with
  | zero =>
    intro i d hk p hp
    rw [chainSeg] at hp
    split at hp
    · simp at hp
    · rw [dif_neg (by omega : ¬ i < n)] at hp
      simp only [List.mem_singleton] at hp
      subst hp
      omega
  | succ k ih =>
    intro i d hk p hp
    rw [chainSeg] at hp
    split at hp
    · simp at hp
    · by_cases hlt : i < n
      · rw [dif_pos hlt] at hp
        rcases List.mem_cons.mp hp with hh | ht
        · subst hh; omega
        · have := ih (i + 1) (d + 1) (by omega) p ht
          omega
      · rw [dif_neg hlt] at hp
        simp only [List.mem_singleton] at hp
        subst hp
        omega

/-- Every entry of `chainSeg n maxDepth i d` has id ≥ `i` and depth shifted
from its id by the same offset the seed pair `(i, d)` has. -/
theorem chainSeg_entries (n maxDepth i d : Nat) :
    ∀ p ∈ chainSeg n maxDepth i d, i ≤ p.1 ∧ p.2 + i = p.1 + d :=
  chainSeg_entries_aux n maxDepth (n - i) i d (le_refl _)

/-- Each commit id occurs at most once in a `chainSeg` (ids are strictly
increasing down the chain). -/
theorem chainSeg_countP_aux (n maxDepth : Nat) :
    ∀ (k i d id : Nat), n - i ≤ k →
      (chainSeg n maxDepth i d).countP (fun p => p.1 == id) ≤ 1 := by
  intro k
  induction k with
  | zero =>
    intro i d id hk
    rw [chainSeg]
    split
    · simp
    · rw [dif_neg (by omega : ¬ i < n)]
      simp [List.countP_cons]
      split <;> omega
  | succ k ih =>
    intro i d id hk
    rw [chainSeg]
    split
    · simp
    · by_cases hlt : i < n
      · rw [dif_pos hlt]
        rw [List.countP_cons]
        by_cases hid : i = id
        · subst hid
          have hzero : (chainSeg n maxDepth (i + 1) (d + 1)).countP
              (fun p => p.1 == i) = 0 := by
            rw [List.countP_eq_zero]
            intro p hp
            have := chainSeg_entries n maxDepth (i + 1) (d + 1) p hp
            simp only [beq_iff_eq]
            omega
          simp [hzero]
        · have := ih (i + 1) (d + 1) id (by omega)
          have hne : ((i, d).1 == id) = false := by
            simp [beq_iff_eq]; omega
          simpa [hne] using this
      · rw [dif_neg hlt]
        simp [List.countP_cons]
        split <;> omega

/-- Claim C2 (amended): on an ancestry where every commit is reachable from
the start by a single path (a linear chain), each commit identity appears at
most once in the walker's output and its recorded depth equals its exact —
hence smallest — distance from the start. -/
theorem walker_chain_unique (n maxDepth : Nat) (out : List (Nat × Nat))
    (hrun : getParentCommits (chainPar n) 0 maxDepth (n + 2) = some out) :
    (∀ id, out.countP (fun p => p.1 == id) ≤ 1) ∧ ∀ p ∈ out, p.2 = p.1 := by
  rcases Nat.eq_zero_or_pos n with hn | hn
  · subst hn
    have hnil : getParentCommits (chainPar 0) 0 maxDepth 2 = some [] := rfl
    rw [hnil] at hrun
    cases hrun
    simp
  · have hpar : chainPar n 0 = [1] := by simp [chainPar, hn]
    have hlook : lookupDepth (insertAll [] [1] 1) 1 = 1 := by
      rw [lookupDepth_insertAll]; simp
    have hwalk := walkAux_chain n maxDepth (n + 2) 1 1 (insertAll [] [1] 1) []
      (by omega) hlook (by omega)
    rw [getParentCommits, hpar] at hrun
    simp only [List.reverse_singleton] at hrun
    rw [hwalk] at hrun
    simp only [List.nil_append, Option.some.injEq] at hrun
    subst hrun
    constructor
    · intro id
      exact chainSeg_countP_aux n maxDepth (n - 1) 1 1 id (le_refl _)
    · intro p hp
      have := chainSeg_entries n maxDepth 1 1 p hp
      omega

/-- Witness for `walker_chain_unique` on the chain 0 → 1 → 2. -/
theorem walker_chain_unique_witness :
    getParentCommits (chainPar 2) 0 10 4 = some [(1, 1), (2, 2)] ∧
      ((∀ id, ([(1, 1), (2, 2)] : List (Nat × Nat)).countP (fun p => p.1 == id) ≤ 1) ∧
        ∀ p ∈ ([(1, 1), (2, 2)] : List (Nat × Nat)), p.2 = p.1) :=
  ⟨by decide, walker_chain_unique 2 10 [(1, 1), (2, 2)] (by decide)⟩


/-- `commit_time as u64` — Rust numeric cast i64 → u64 (value mod 2^64). -/
def castU64 (t : Int) : Nat := (t % (2 ^ 64 : Int)).toNat

/-- `commit_is_within_duration` (src lines 132-141).  `now?` is
`SystemTime::now().duration_since(UNIX_EPOCH)` in whole seconds (`none` is
the `Err` branch, which returns `true`).  The unsigned subtraction
`now_seconds - commit_time as u64` has no underflow guard; the result `none`
models the panic when `commit_time as u64 > now_seconds`. -/
def commitIsWithinDuration (now? : Option Nat) (commitTime : Int) (maxAgeSecs : Nat) :
    Option Bool :=
  match now? with
  | some nowSeconds =>
    let ct := castU64 commitTime
    if ct > nowSeconds then none
    else some (nowSeconds - ct < maxAgeSecs)
  | none => some true

/-- The command-line arguments that reach the attribution core (src 13-55). -/
structure Args where
  depth : Nat
  jiraUrl : Option String
  jiraRegex : String
  all : Bool

/-- The `TagCommitsError` enum (src lines 143-147). -/
inductive TagCommitsError where
  | NoTags
  | Git
  | Regex
deriving DecidableEq, Repr

/-- `CommitTagInfo` (src lines 273-279), minus the live commit handle (the
map is keyed by the commit id already). -/
structure CommitTagInfo where
  depth : Nat
  tagName : String
  formattedTickets : String
  formattedUrls : List String
deriving DecidableEq, Repr

/-- The accumulating `HashMap<String, CommitTagInfo>` keyed by commit id. -/
abbrev AttrMap := List (Nat × CommitTagInfo)

/-- `commit_to_tag.get(&id)` — first hit wins, matching overwriting inserts. -/
def lookupAttr (m : AttrMap) (id : Nat) : Option CommitTagInfo :=
  (m.find? (fun p => p.1 == id)).map (fun p => p.2)

/-- `commit_to_tag.insert(id, info)` — prepend; `lookupAttr` then behaves
exactly like `HashMap::insert` overwriting the old binding. -/
def insertAttr (m : AttrMap) (id : Nat) (info : CommitTagInfo) : AttrMap :=
  (id, info) :: m

/-- Joined display list of matched tickets; an empty join renders the
placeholder (src lines 225-238; the bold/italic ANSI wrapping is
presentation-only and modelled as the identity). -/
def formatTickets (found : List String) : String :=
  let joined := String.intercalate ", " found
  if joined.isEmpty then "(no tickets)" else joined

/-- URL built for one matched ticket (src lines 240-256).  Rust's
`url.contains("{ticket}")` holds iff `splitOn` yields more than one piece,
and `url.replace("{ticket}", ticket)` is `intercalate` over those pieces. -/
def formatUrl (jiraUrl : Option String) (ticket : String) : String :=
  match jiraUrl with
  | some url =>
    if (url.splitOn "\x7bticket\x7d").length ≠ 1 then
      String.intercalate ticket (url.splitOn "\x7bticket\x7d")
    else url ++ ticket
  | none => ticket

/-- The `CommitTagInfo` record built at insertion (src lines 259-267). -/
def attrRecord (depth : Nat) (tagName : String) (found : List String)
    (jiraUrl : Option String) : CommitTagInfo :=
  ⟨depth, tagName, formatTickets found, found.map (formatUrl jiraUrl)⟩

/-- The collaborators `get_tag_commits` reads: the regex engine (compile
returns `none` on a malformed pattern, or the `find_iter` matcher), the
parsed arguments, and the repository accessors (message, timestamp and
parent list of each commit id). -/
structure Ctx where
  engine : String → Option (String → List String)
  args : Args
  msgOf : Nat → Option String
  timeOf : Nat → Int
  par : Nat → List Nat

/-- `add_if_matches_regex` (src lines 213-271).  The regex is compiled on
every call; a malformed pattern fails here, and only here, with `Regex`.
A commit whose message is not readable (`commit.message()` = `None`) is
silently not inserted.  `regex.is_match(message)` holds iff the matcher
finds at least one match. -/
def addIfMatchesRegex (ctx : Ctx) (commitId : Nat) (m : AttrMap) (depth : Nat)
    (tagName : String) : Except TagCommitsError AttrMap :=
  match ctx.engine ctx.args.jiraRegex with
  | none => .error .Regex
  | some matcher =>
    match ctx.msgOf commitId with
    | none => .ok m
    | some message =>
      let found := matcher message
      if !found.isEmpty || ctx.args.all then
        .ok (insertAttr m commitId (attrRecord depth tagName found ctx.args.jiraUrl))
      else .ok m

/-- The per-tag walker-output loop of `get_tag_commits` (src lines 188-205):
skip an entry whose commit already sits in the map at strictly smaller
depth, otherwise attempt insertion. -/
def processParents (ctx : Ctx) (tagName : String) :
    List (Nat × Nat) → AttrMap → Except TagCommitsError AttrMap
  | [], m => .ok m
  | (pid, pdepth) :: rest, m =>
    let skip : Bool :=
      match lookupAttr m pid with
      | some existing => decide (existing.depth < pdepth)
      | none => false
    if skip then processParents ctx tagName rest m
    else
      match addIfMatchesRegex ctx pid m pdepth tagName with
      | .error e => .error e
      | .ok m2 => processParents ctx tagName rest m2

/-- A tag as `get_tag_commits` consumes it: `tag.name()` and the id of
`tag.target()` (`none` marks the respective failure). -/
structure TagM where
  name : Option String
  target : Option Nat
deriving DecidableEq, Repr

/-- One iteration of the tag loop of `get_tag_commits` (src lines 175-206):
resolve name (pushing it before any further check), resolve target, apply
the recency filter, attribute the target at depth 0, walk and process the
ancestors.  `none` is a panic (recency underflow) or walker fuel
exhaustion; `some` is the Rust control flow. -/
def processTag (ctx : Ctx) (now? : Option Nat) (maxAgeSecs fuel : Nat)
    (st : AttrMap × List String) (tag : TagM) :
    Option (Except TagCommitsError (AttrMap × List String)) :=
  match tag.name with
  | none => some (.error .NoTags)
  | some tagName =>
    let tagNames := st.2 ++ [tagName]
    match tag.target with
    | none => some (.error .Git)
    | some cid =>
      match commitIsWithinDuration now? (ctx.timeOf cid) maxAgeSecs with
      | none => none
      | some false => some (.ok (st.1, tagNames))
      | some true =>
        match addIfMatchesRegex ctx cid st.1 0 tagName with
        | .error e => some (.error e)
        | .ok m1 =>
          match getParentCommits ctx.par cid ctx.args.depth fuel with
          | none => none
          | some parents =>
            match processParents ctx tagName parents m1 with
            | .error e => some (.error e)
            | .ok m2 => some (.ok (m2, tagNames))

/-- The tag loop, threading the accumulating map and name list. -/
def getTagCommitsAux (ctx : Ctx) (now? : Option Nat) (maxAgeSecs fuel : Nat) :
    List TagM → AttrMap × List String →
      Option (Except TagCommitsError (AttrMap × List String))
  | [], st => some (.ok st)
  | tag :: rest, st =>
    match processTag ctx now? maxAgeSecs fuel st tag with
    | none => none
    | some (.error e) => some (.error e)
    | some (.ok st2) => getTagCommitsAux ctx now? maxAgeSecs fuel rest st2

/-- `tag_names.sort()` — lexicographic sort of the collected names. -/
def sortStrings (names : List String) : List String :=
  List.insertionSort (fun a b => a ≤ b) names

/-- `get_tag_commits` (src lines 161-211): run the tag loop from empty
state, then sort the collected tag names. -/
def getTagCommits (ctx : Ctx) (now? : Option Nat) (maxAgeSecs fuel : Nat)
    (tags : List TagM) : Option (Except TagCommitsError (AttrMap × List String)) :=
  match getTagCommitsAux ctx now? maxAgeSecs fuel tags ([], []) with
  | none => none
  | some (.error e) => some (.error e)
  | some (.ok (m, names)) => some (.ok (m, sortStrings names))

/-- `get_tags` (src lines 79-87): `tag_foreach` yields tag ids in order and
each is resolved with `repo.find_tag(tag_id).unwrap()`.  `none` models the
panic of that `unwrap` when `find_tag` fails (e.g. a lightweight tag whose
id names a commit, not a tag object).  The function has no error channel:
a resolution failure is a panic, never a `TagCommitsError` value. -/
def getTags (tagIds : List Nat) (findTag : Nat → Option TagM) : Option (List TagM) :=
  match tagIds with
  | [] => some []
  | id :: rest =>
    match findTag id with
    | none => none
    | some t =>
      match getTags rest findTag with
      | none => none
      | some ts => some (t :: ts)

/-- Claim C3 (code bug): commit 2 lies within 2 parent hops of commit 0
(it is in the 2-hop ball and is not the start), the walk at `max_depth = 2`
terminates, yet commit 2 appears nowhere in the output — the walker drops a
reachable commit, contradicting its own doc comment ("Get all the parent
commits of a commit, up to a maximum depth"). -/
theorem walker_drops_reachable_commit :
    getParentCommits dropPar 0 2 10 = some [(1, 1), (3, 2)] ∧
      2 ∈ ball dropPar 2 0 ∧ (2 : Nat) ≠ 0 ∧
      ((getParentCommits dropPar 0 2 10).getD []).countP (fun p => p.1 == 2) = 0 := by
  refine ⟨by decide, by decide, by decide, by decide⟩

section AttrMapLemmas

/-- Lookup of the key just inserted. -/
theorem lookupAttr_insertAttr_self (m : AttrMap) (id : Nat) (info : CommitTagInfo) :
    lookupAttr (insertAttr m id info) id = some info := by
  simp [lookupAttr, insertAttr]

/-- Lookup of any other key is unchanged by an insert. -/
theorem lookupAttr_insertAttr_ne (m : AttrMap) (cid id : Nat) (info : CommitTagInfo)
    (h : id ≠ cid) :
    lookupAttr (insertAttr m cid info) id = lookupAttr m id := by
  simp only [lookupAttr, insertAttr]
  rw [List.find?_cons_of_neg]
  simp [Ne.symm h]

end AttrMapLemmas

/-- Claim C10: the recency check subtracts `commit_time as u64` from
`now_seconds` over unsigned 64-bit integers with no guard — whenever the
cast timestamp exceeds the current wall-clock seconds the subtraction
underflows (the `none` result), so the function is not total; and every
in-range negative i64 timestamp casts to at least 2^63, hence underflows
for any current time below 2^63 seconds. -/
theorem recency_subtraction_underflow (now maxAgeSecs : Nat) (t : Int) :
    (castU64 t > now → commitIsWithinDuration (some now) t maxAgeSecs = none) ∧
      (-(2 ^ 63) ≤ t → t < 0 → now < 2 ^ 63 → castU64 t > now) := by
  constructor
  · intro h
    simp only [commitIsWithinDuration]
    rw [if_pos h]
  · intro h1 h2 h3
    have hmod : t % (2 ^ 64 : Int) = t + 2 ^ 64 := by omega
    unfold castU64
    rw [hmod]
    omega

/-- Witness for `recency_subtraction_underflow`: a commit stamped at second
200 checked against a clock reading second 100. -/
theorem recency_subtraction_underflow_witness :
    castU64 200 > 100 ∧ commitIsWithinDuration (some 100) 200 50 = none :=
  ⟨by decide, (recency_subtraction_underflow 100 50 200).1 (by decide)⟩

/-- A concrete regex engine for examples: every pattern compiles and the
matcher finds the single token "AB-1" in every message. -/
def engineConst : String → Option (String → List String) :=
  fun _ => some (fun _ => ["AB-1"])

/-- The default command-line arguments (src lines 13-55). -/
def argsDefault : Args := ⟨10, none, "[A-Z]+-[0-9]+", false⟩

/-- Repository for the recency-boundary counterexample: a single commit 0
stamped at second 900, whose message matches the pattern. -/
def boundaryCtx : Ctx :=
  ⟨engineConst, argsDefault, fun _ => some "AB-1 fix", fun _ => (900 : Int), fun _ => []⟩

/-- Counterexample to claim C5: with `now = 1000` and `max_age = 100`, the
tag target's timestamp 900 lies exactly at the `now - max_age` boundary,
its message matches the pattern, and yet the tag contributes zero
attributions — the strict `<` in `commit_is_within_duration` skips the
boundary tag instead of retaining it. -/
theorem boundary_tag_skipped :
    castU64 (boundaryCtx.timeOf 0) = 1000 - 100 ∧
      commitIsWithinDuration (some 1000) (boundaryCtx.timeOf 0) 100 = some false ∧
      getTagCommits boundaryCtx (some 1000) 100 10 [⟨some "v1", some 0⟩] =
        some (.ok ([], ["v1"])) :=
  ⟨by decide, by decide, rfl⟩

/-- Claim C5 (amended): a tag whose target timestamp is older than *or
exactly at* `now - max_age` contributes zero attributions; the strict
comparison `now - commit_time < max_age` means the boundary tag is skipped,
not retained, and only tags strictly newer than `now - max_age` are
processed. -/
theorem stale_tag_contributes_nothing (ctx : Ctx) (now maxAgeSecs fuel : Nat)
    (name : String) (cid : Nat)
    (hle : castU64 (ctx.timeOf cid) ≤ now)
    (hold : maxAgeSecs ≤ now - castU64 (ctx.timeOf cid)) :
    getTagCommits ctx (some now) maxAgeSecs fuel [⟨some name, some cid⟩] =
      some (.ok ([], [name])) := by
  have hwithin : commitIsWithinDuration (some now) (ctx.timeOf cid) maxAgeSecs =
      some false := by
    simp only [commitIsWithinDuration]
    rw [if_neg (by omega)]
    simp only [Option.some.injEq, decide_eq_false_iff_not]
    omega
  simp only [getTagCommits, getTagCommitsAux, processTag, hwithin]
  simp [sortStrings]

/-- Witness for `stale_tag_contributes_nothing` at the boundary repository. -/
theorem stale_tag_contributes_nothing_witness :
    (castU64 (boundaryCtx.timeOf 0) ≤ 1000 ∧ 100 ≤ 1000 - castU64 (boundaryCtx.timeOf 0)) ∧
      getTagCommits boundaryCtx (some 1000) 100 10 [⟨some "v1", some 0⟩] =
        some (.ok ([], ["v1"])) :=
  ⟨⟨by decide, by decide⟩,
    stale_tag_contributes_nothing boundaryCtx 1000 100 10 "v1" 0 (by decide) (by decide)⟩

section TieBreakLemmas

/-- A walker entry whose commit already sits in the map at strictly smaller
depth is skipped, leaving the map unchanged (src lines 192-196). -/
theorem processParents_single_skip (ctx : Ctx) (t : String) (c d : Nat) (m : AttrMap)
    (info : CommitTagInfo) (hl : lookupAttr m c = some info) (hlt : info.depth < d) :
    processParents ctx t [(c, d)] m = .ok m := by
  simp [processParents, hl, hlt]

/-- A walker entry whose commit is absent, or present at depth ≥ its own,
is inserted (overwriting) when the message matches or `all` is set
(src lines 192-204 followed by 258-268). -/
theorem processParents_single_insert (ctx : Ctx) (t : String) (c d : Nat) (m : AttrMap)
    (matcher : String → List String) (msg : String)
    (hcomp : ctx.engine ctx.args.jiraRegex = some matcher)
    (hmsg : ctx.msgOf c = some msg)
    (hguard : (!(matcher msg).isEmpty || ctx.args.all) = true)
    (hskip : ∀ info, lookupAttr m c = some info → ¬ info.depth < d) :
    processParents ctx t [(c, d)] m =
      .ok (insertAttr m c (attrRecord d t (matcher msg) ctx.args.jiraUrl)) := by
  have haddeq : addIfMatchesRegex ctx c m d t =
      .ok (insertAttr m c (attrRecord d t (matcher msg) ctx.args.jiraUrl)) := by
    simp only [addIfMatchesRegex, hcomp, hmsg]
    rw [if_pos hguard]
  cases hl : lookupAttr m c with
  | none => simp [processParents, hl, haddeq]
  | some info =>
    have hnlt := hskip info hl
    simp [processParents, hl, hnlt, haddeq]

end TieBreakLemmas

/-- Claim C1: in the walker-entry loop of `get_tag_commits`, the tag
reaching a commit at strictly smaller depth owns it regardless of the order
the two tags are processed in, and at equal depth the later-processed tag's
attribution stands. -/
theorem tie_break_depth_order_independent (ctx : Ctx) (tagA tagB : String)
    (c dA dB : Nat) (m : AttrMap) (matcher : String → List String) (msg : String)
    (hcomp : ctx.engine ctx.args.jiraRegex = some matcher)
    (hmsg : ctx.msgOf c = some msg)
    (hins : matcher msg ≠ [] ∨ ctx.args.all = true)
    (hfresh : lookupAttr m c = none) :
    (dB < dA →
      ∃ m1 m2 m3 m4,
        processParents ctx tagA [(c, dA)] m = .ok m1 ∧
        processParents ctx tagB [(c, dB)] m1 = .ok m2 ∧
        lookupAttr m2 c = some (attrRecord dB tagB (matcher msg) ctx.args.jiraUrl) ∧
        processParents ctx tagB [(c, dB)] m = .ok m3 ∧
        processParents ctx tagA [(c, dA)] m3 = .ok m4 ∧
        lookupAttr m4 c = some (attrRecord dB tagB (matcher msg) ctx.args.jiraUrl)) ∧
    (dA = dB →
      ∃ m1 m2,
        processParents ctx tagA [(c, dA)] m = .ok m1 ∧
        processParents ctx tagB [(c, dB)] m1 = .ok m2 ∧
        lookupAttr m2 c = some (attrRecord dB tagB (matcher msg) ctx.args.jiraUrl)) := by
  have hguard : (!(matcher msg).isEmpty || ctx.args.all) = true := by
    rcases hins with h | h
    · have hne : (matcher msg).isEmpty = false := by
        cases hm : matcher msg with
        | nil => exact absurd hm h
        | cons a l => rfl
      simp [hne]
    · simp [h]
  have hfreshskip : ∀ info, lookupAttr m c = some info → ¬ info.depth < dA := by
    intro info hinfo
    rw [hfresh] at hinfo
    cases hinfo
  have hfreshskipB : ∀ info, lookupAttr m c = some info → ¬ info.depth < dB := by
    intro info hinfo
    rw [hfresh] at hinfo
    cases hinfo
  constructor
  · intro hlt
    refine ⟨insertAttr m c (attrRecord dA tagA (matcher msg) ctx.args.jiraUrl),
      insertAttr (insertAttr m c (attrRecord dA tagA (matcher msg) ctx.args.jiraUrl)) c
        (attrRecord dB tagB (matcher msg) ctx.args.jiraUrl),
      insertAttr m c (attrRecord dB tagB (matcher msg) ctx.args.jiraUrl),
      insertAttr m c (attrRecord dB tagB (matcher msg) ctx.args.jiraUrl),
      processParents_single_insert ctx tagA c dA m matcher msg hcomp hmsg hguard
        hfreshskip, ?_, lookupAttr_insertAttr_self _ _ _,
      processParents_single_insert ctx tagB c dB m matcher msg hcomp hmsg hguard
        hfreshskipB, ?_, lookupAttr_insertAttr_self _ _ _⟩
    · refine processParents_single_insert ctx tagB c dB _ matcher msg hcomp hmsg hguard ?_
      intro info hinfo
      rw [lookupAttr_insertAttr_self] at hinfo
      cases hinfo
      simp only [attrRecord]
      omega
    · refine processParents_single_skip ctx tagA c dA _ _
        (lookupAttr_insertAttr_self _ _ _) ?_
      simp only [attrRecord]
      omega
  · intro heq
    refine ⟨insertAttr m c (attrRecord dA tagA (matcher msg) ctx.args.jiraUrl),
      insertAttr (insertAttr m c (attrRecord dA tagA (matcher msg) ctx.args.jiraUrl)) c
        (attrRecord dB tagB (matcher msg) ctx.args.jiraUrl),
      processParents_single_insert ctx tagA c dA m matcher msg hcomp hmsg hguard
        hfreshskip, ?_, lookupAttr_insertAttr_self _ _ _⟩
    refine processParents_single_insert ctx tagB c dB _ matcher msg hcomp hmsg hguard ?_
    intro info hinfo
    rw [lookupAttr_insertAttr_self] at hinfo
    cases hinfo
    simp only [attrRecord]
    omega

/-- Repository for the tie-break witness: commit 7 carries a matching
message; the graph and timestamps are irrelevant to `processParents`. -/
def tieCtx : Ctx :=
  ⟨engineConst, argsDefault, fun _ => some "AB-1 fix", fun _ => 0, fun _ => []⟩

/-- Witness for `tie_break_depth_order_independent`: tag "a" reaches commit
7 at depth 2, tag "b" at depth 1. -/
theorem tie_break_depth_order_independent_witness :
    ((1 : Nat) < 2 →
      ∃ m1 m2 m3 m4,
        processParents tieCtx "a" [(7, 2)] [] = .ok m1 ∧
        processParents tieCtx "b" [(7, 1)] m1 = .ok m2 ∧
        lookupAttr m2 7 = some (attrRecord 1 "b" ["AB-1"] none) ∧
        processParents tieCtx "b" [(7, 1)] [] = .ok m3 ∧
        processParents tieCtx "a" [(7, 2)] m3 = .ok m4 ∧
        lookupAttr m4 7 = some (attrRecord 1 "b" ["AB-1"] none)) ∧
    ((2 : Nat) = 1 →
      ∃ m1 m2,
        processParents tieCtx "a" [(7, 2)] [] = .ok m1 ∧
        processParents tieCtx "b" [(7, 1)] m1 = .ok m2 ∧
        lookupAttr m2 7 = some (attrRecord 1 "b" ["AB-1"] none)) :=
  tie_break_depth_order_independent tieCtx "a" "b" 7 2 1 []
    (fun _ => ["AB-1"]) "AB-1 fix" rfl rfl (Or.inl (by decide)) rfl

/-- A commit id whose message is readable and matched by the compiled
pattern at least once. -/
def MatchedId (ctx : Ctx) (id : Nat) : Prop :=
  ∃ msg matcher, ctx.msgOf id = some msg ∧
    ctx.engine ctx.args.jiraRegex = some matcher ∧ matcher msg ≠ []

section MessageFilterLemmas

/-- With `all = false`, `add_if_matches_regex` inserts only commits whose
message has at least one match, so it preserves the matched-commits
invariant of the map. -/
theorem addIfMatchesRegex_matched_inv (ctx : Ctx) (hall : ctx.args.all = false)
    (cid : Nat) (m m' : AttrMap) (d : Nat) (t : String)
    (hrun : addIfMatchesRegex ctx cid m d t = .ok m')
    (hm : ∀ id info, lookupAttr m id = some info → MatchedId ctx id) :
    ∀ id info, lookupAttr m' id = some info → MatchedId ctx id := by
  simp only [addIfMatchesRegex, hall, Bool.or_false] at hrun
  split at hrun
  · cases hrun
  · next matcher hcomp =>
    split at hrun
    · cases hrun
      exact hm
    · next message hmsg =>
      split at hrun
      · next hguard =>
        cases hrun
        intro id info hl
        by_cases hid : id = cid
        · subst hid
          refine ⟨message, matcher, hmsg, hcomp, ?_⟩
          intro hempty
          rw [hempty] at hguard
          simp at hguard
        · rw [lookupAttr_insertAttr_ne m cid id _ hid] at hl
          exact hm id info hl
      · cases hrun
        exact hm

/-- The walker-entry loop preserves the matched-commits invariant when
`all = false`. -/
theorem processParents_matched_inv (ctx : Ctx) (hall : ctx.args.all = false)
    (t : String) :
    ∀ (entries : List (Nat × Nat)) (m m' : AttrMap),
      processParents ctx t entries m = .ok m' →
      (∀ id info, lookupAttr m id = some info → MatchedId ctx id) →
      ∀ id info, lookupAttr m' id = some info → MatchedId ctx id := by
  intro entries
  induction entries with
  | nil =>
    intro m m' hrun hm
    cases hrun
    exact hm
  | cons e rest ih =>
    intro m m' hrun hm
    obtain ⟨pid, pdepth⟩ := e
    simp only [processParents] at hrun
    split at hrun
    · exact ih m m' hrun hm
    · split at hrun
      · cases hrun
      · next m2 hadd =>
        exact ih m2 m' hrun
          (addIfMatchesRegex_matched_inv ctx hall pid m m2 pdepth t hadd hm)

/-- One tag-loop iteration preserves the matched-commits invariant when
`all = false`. -/
theorem processTag_matched_inv (ctx : Ctx) (hall : ctx.args.all = false)
    (now? : Option Nat) (maxAgeSecs fuel : Nat) (st st' : AttrMap × List String)
    (tag : TagM) (hrun : processTag ctx now? maxAgeSecs fuel st tag = some (.ok st'))
    (hm : ∀ id info, lookupAttr st.1 id = some info → MatchedId ctx id) :
    ∀ id info, lookupAttr st'.1 id = some info → MatchedId ctx id := by
  simp only [processTag] at hrun
  split at hrun
  · simp at hrun
  · next tagName hname =>
    split at hrun
    · simp at hrun
    · next cid htgt =>
      split at hrun
      · simp at hrun
      · simp only [Option.some.injEq, Except.ok.injEq] at hrun
        subst hrun
        exact hm
      · split at hrun
        · simp at hrun
        · next m1 hadd =>
          split at hrun
          · simp at hrun
          · next parents hwalk =>
            split at hrun
            · simp at hrun
            · next m2 hpp =>
              simp only [Option.some.injEq, Except.ok.injEq] at hrun
              subst hrun
              exact processParents_matched_inv ctx hall tagName parents m1 m2 hpp
                (addIfMatchesRegex_matched_inv ctx hall cid st.1 m1 0 tagName hadd hm)

/-- The whole tag loop preserves the matched-commits invariant when
`all = false`. -/
theorem getTagCommitsAux_matched_inv (ctx : Ctx) (hall : ctx.args.all = false)
    (now? : Option Nat) (maxAgeSecs fuel : Nat) :
    ∀ (tags : List TagM) (st st' : AttrMap × List String),
      getTagCommitsAux ctx now? maxAgeSecs fuel tags st = some (.ok st') →
      (∀ id info, lookupAttr st.1 id = some info → MatchedId ctx id) →
      ∀ id info, lookupAttr st'.1 id = some info → MatchedId ctx id := by
  intro tags
  induction tags with
  | nil =>
    intro st st' hrun hm
    simp only [getTagCommitsAux, Option.some.injEq, Except.ok.injEq] at hrun
    subst hrun
    exact hm
  | cons tag rest ih =>
    intro st st' hrun hm
    simp only [getTagCommitsAux] at hrun
    split at hrun
    · simp at hrun
    · simp at hrun
    · next st2 hpt =>
      exact ih st2 st' hrun
        (processTag_matched_inv ctx hall now? maxAgeSecs fuel st st2 tag hpt hm)

end MessageFilterLemmas

/-- Claim C4: with `all = false` every commit in the final attribution map
has a readable message with at least one pattern match; with `all = true` a
commit that reaches insertion (recency and tie-break already passed, message
readable) is inserted regardless of match count, a zero-match list being
rendered as the "(no tickets)" placeholder. -/
theorem message_filter_attribution (ctx : Ctx) :
    (∀ (now? : Option Nat) (maxAgeSecs fuel : Nat) (tags : List TagM)
        (m : AttrMap) (names : List String),
      ctx.args.all = false →
      getTagCommits ctx now? maxAgeSecs fuel tags = some (.ok (m, names)) →
      ∀ id info, lookupAttr m id = some info → MatchedId ctx id) ∧
    (∀ (cid : Nat) (m : AttrMap) (d : Nat) (t : String) (msg : String)
        (matcher : String → List String),
      ctx.args.all = true →
      ctx.engine ctx.args.jiraRegex = some matcher →
      ctx.msgOf cid = some msg →
      addIfMatchesRegex ctx cid m d t =
        .ok (insertAttr m cid (attrRecord d t (matcher msg) ctx.args.jiraUrl)) ∧
      (matcher msg = [] →
        (attrRecord d t (matcher msg) ctx.args.jiraUrl).formattedTickets =
          "(no tickets)")) := by
  constructor
  · intro now? maxAgeSecs fuel tags m names hall hrun
    simp only [getTagCommits] at hrun
    split at hrun
    · simp at hrun
    · simp at hrun
    · next m0 names0 haux =>
      simp only [Option.some.injEq, Except.ok.injEq, Prod.mk.injEq] at hrun
      obtain ⟨hm0, _⟩ := hrun
      subst hm0
      refine getTagCommitsAux_matched_inv ctx hall now? maxAgeSecs fuel tags
        ([], []) (m0, names0) haux ?_
      intro id info h
      simp [lookupAttr] at h
  · intro cid m d t msg matcher hall hcomp hmsg
    constructor
    · simp [addIfMatchesRegex, hcomp, hmsg, hall, Bool.or_true]
    · intro hempty
      rw [hempty]
      rfl

/-- Repository for the `all = true` half of the message-filter witness:
every pattern compiles to a matcher that finds nothing. -/
def allCtx : Ctx :=
  ⟨fun _ => some (fun _ => []), ⟨10, none, "[A-Z]+-[0-9]+", true⟩,
    fun _ => some "no tickets here", fun _ => 0, fun _ => []⟩

/-- Witness for `message_filter_attribution`: a one-tag run with
`all = false` whose single attributed commit matches, and an `all = true`
insertion of a zero-match commit rendered with the placeholder. -/
theorem message_filter_attribution_witness :
    (tieCtx.args.all = false ∧
      getTagCommits tieCtx (some 1000) 2000 10 [⟨some "v1", some 0⟩] =
        some (.ok ([(0, attrRecord 0 "v1" ["AB-1"] none)], ["v1"])) ∧
      MatchedId tieCtx 0) ∧
    (allCtx.args.all = true ∧
      addIfMatchesRegex allCtx 3 [] 1 "v1" =
        .ok (insertAttr [] 3 (attrRecord 1 "v1" [] none)) ∧
      (attrRecord 1 "v1" ([] : List String) none).formattedTickets = "(no tickets)") :=
  ⟨⟨rfl, rfl,
    (message_filter_attribution tieCtx).1 (some 1000) 2000 10 [⟨some "v1", some 0⟩]
      [(0, attrRecord 0 "v1" ["AB-1"] none)] ["v1"] rfl rfl 0
      (attrRecord 0 "v1" ["AB-1"] none) rfl⟩,
   ⟨rfl,
    ((message_filter_attribution allCtx).2 3 [] 1 "v1" "no tickets here"
      (fun _ => []) rfl rfl rfl).1,
    ((message_filter_attribution allCtx).2 3 [] 1 "v1" "no tickets here"
      (fun _ => []) rfl rfl rfl).2 rfl⟩⟩

section TagNameLemmas

/-- `processTag` appends exactly the tag's name to the collected name list
— before the target resolution and recency checks, so a recency-skipped tag
is still recorded (src lines 176-182). -/
theorem processTag_names (ctx : Ctx) (now? : Option Nat) (maxAgeSecs fuel : Nat)
    (st st' : AttrMap × List String) (tag : TagM)
    (hrun : processTag ctx now? maxAgeSecs fuel st tag = some (.ok st')) :
    ∃ nm, tag.name = some nm ∧ st'.2 = st.2 ++ [nm] := by
  simp only [processTag] at hrun
  split at hrun
  · simp at hrun
  · next tagName hname =>
    refine ⟨tagName, hname, ?_⟩
    split at hrun
    · simp at hrun
    · split at hrun
      · simp at hrun
      · simp only [Option.some.injEq, Except.ok.injEq] at hrun
        subst hrun
        rfl
      · split at hrun
        · simp at hrun
        · split at hrun
          · simp at hrun
          · split at hrun
            · simp at hrun
            · simp only [Option.some.injEq, Except.ok.injEq] at hrun
              subst hrun
              rfl

/-- Through the tag loop, previously collected names survive and every
processed tag contributes its name. -/
theorem getTagCommitsAux_names (ctx : Ctx) (now? : Option Nat)
    (maxAgeSecs fuel : Nat) :
    ∀ (tags : List TagM) (st st' : AttrMap × List String),
      getTagCommitsAux ctx now? maxAgeSecs fuel tags st = some (.ok st') →
      (∀ s ∈ st.2, s ∈ st'.2) ∧
        ∀ t ∈ tags, ∃ nm, t.name = some nm ∧ nm ∈ st'.2 := by
  intro tags
  induction tags with
  | nil =>
    intro st st' hrun
    simp only [getTagCommitsAux, Option.some.injEq, Except.ok.injEq] at hrun
    subst hrun
    exact ⟨fun s hs => hs, by simp⟩
  | cons tag rest ih =>
    intro st st' hrun
    simp only [getTagCommitsAux] at hrun
    split at hrun
    · simp at hrun
    · simp at hrun
    · next st2 hpt =>
      obtain ⟨hsub, hrest⟩ := ih st2 st' hrun
      obtain ⟨nm, hnm, hst2⟩ := processTag_names ctx now? maxAgeSecs fuel st st2 tag hpt
      constructor
      · intro s hs
        exact hsub s (by rw [hst2]; exact List.mem_append_left _ hs)
      · intro t ht
        rcases List.mem_cons.mp ht with rfl | hmem
        · exact ⟨nm, hnm, hsub nm (by rw [hst2]; simp)⟩
        · exact hrest t hmem

end TagNameLemmas

/-- Claim C8: the tag-name list returned by attribution is sorted
lexicographically and contains the name of every enumerated tag — including
tags the recency filter skipped and tags that attributed zero commits. -/
theorem tag_names_sorted_and_complete (ctx : Ctx) (now? : Option Nat)
    (maxAgeSecs fuel : Nat) (tags : List TagM) (m : AttrMap) (names : List String)
    (hrun : getTagCommits ctx now? maxAgeSecs fuel tags = some (.ok (m, names))) :
    List.Sorted (fun a b => a ≤ b) names ∧
      ∀ t ∈ tags, ∃ nm, t.name = some nm ∧ nm ∈ names := by
  simp only [getTagCommits] at hrun
  split at hrun
  · simp at hrun
  · simp at hrun
  · next m0 names0 haux =>
    simp only [Option.some.injEq, Except.ok.injEq, Prod.mk.injEq] at hrun
    obtain ⟨hm0, hnames⟩ := hrun
    subst hnames
    constructor
    · exact List.sorted_insertionSort _ _
    · intro t ht
      obtain ⟨_, hall⟩ := getTagCommitsAux_names ctx now? maxAgeSecs fuel tags
        ([], []) (m0, names0) haux
      obtain ⟨nm, hnm, hmem⟩ := hall t ht
      exact ⟨nm, hnm, by simpa [sortStrings] using hmem⟩

/-- Witness for `tag_names_sorted_and_complete` on a one-tag run. -/
theorem tag_names_sorted_and_complete_witness :
    getTagCommits tieCtx (some 1000) 2000 10 [⟨some "v1", some 0⟩] =
        some (.ok ([(0, attrRecord 0 "v1" ["AB-1"] none)], ["v1"])) ∧
      (List.Sorted (fun a b => a ≤ b) ["v1"] ∧
        ∀ t ∈ [(⟨some "v1", some 0⟩ : TagM)], ∃ nm, t.name = some nm ∧ nm ∈ ["v1"]) :=
  ⟨rfl, tag_names_sorted_and_complete tieCtx (some 1000) 2000 10 [⟨some "v1", some 0⟩]
    [(0, attrRecord 0 "v1" ["AB-1"] none)] ["v1"] rfl⟩

/-- With a malformed pattern the tag loop fails with `Regex` as soon as one
tag passes the recency filter — the pattern is compiled only inside
`add_if_matches_regex`, never earlier. -/
theorem getTagCommitsAux_regex_error (ctx : Ctx) (now? : Option Nat)
    (maxAgeSecs fuel : Nat) (hbad : ctx.engine ctx.args.jiraRegex = none) :
    ∀ (tags : List TagM) (st : AttrMap × List String),
      (∀ t ∈ tags, t.name ≠ none ∧
        ∃ cid, t.target = some cid ∧
          commitIsWithinDuration now? (ctx.timeOf cid) maxAgeSecs ≠ none) →
      (∃ t ∈ tags, ∃ cid, t.target = some cid ∧
        commitIsWithinDuration now? (ctx.timeOf cid) maxAgeSecs = some true) →
      getTagCommitsAux ctx now? maxAgeSecs fuel tags st = some (.error .Regex) := by
  intro tags
  induction tags with
  | nil =>
    intro st hwf hex
    simp at hex
  | cons tag rest ih =>
    intro st hwf hex
    obtain ⟨hname, cid, htgt, hwithin⟩ := hwf tag (by simp)
    obtain ⟨nm, hnm⟩ := Option.ne_none_iff_exists'.mp hname
    cases hw : commitIsWithinDuration now? (ctx.timeOf cid) maxAgeSecs with
    | none => exact absurd hw hwithin
    | some b =>
      cases b with
      | true =>
        have haddbad : addIfMatchesRegex ctx cid st.1 0 nm = .error .Regex := by
          simp [addIfMatchesRegex, hbad]
        simp [getTagCommitsAux, processTag, hnm, htgt, hw, haddbad]
      | false =>
        rcases hex with ⟨t', ht', cid', htgt', hwithin'⟩
        rcases List.mem_cons.mp ht' with rfl | hmem
        · rw [htgt] at htgt'
          cases htgt'
          rw [hw] at hwithin'
          cases hwithin'
        · have hstep := ih (st.1, st.2 ++ [nm])
            (fun u hu => hwf u (List.mem_cons_of_mem _ hu))
            ⟨t', hmem, cid', htgt', hwithin'⟩
          simp [getTagCommitsAux, processTag, hnm, htgt, hw, hstep]

/-- Claim C6 (amended): a malformed ticket pattern aborts the run with the
`Regex` error provided at least one enumerated tag is named, resolvable, and
within the age cutoff; the pattern is compiled lazily, once per attributed
commit, so a run that never reaches an attribution succeeds despite the
malformed pattern. -/
theorem malformed_pattern_aborts (ctx : Ctx) (now? : Option Nat)
    (maxAgeSecs fuel : Nat) (tags : List TagM)
    (hbad : ctx.engine ctx.args.jiraRegex = none)
    (hwf : ∀ t ∈ tags, t.name ≠ none ∧ ∃ cid, t.target = some cid ∧
      commitIsWithinDuration now? (ctx.timeOf cid) maxAgeSecs ≠ none)
    (hex : ∃ t ∈ tags, ∃ cid, t.target = some cid ∧
      commitIsWithinDuration now? (ctx.timeOf cid) maxAgeSecs = some true) :
    getTagCommits ctx now? maxAgeSecs fuel tags = some (.error .Regex) := by
  have haux := getTagCommitsAux_regex_error ctx now? maxAgeSecs fuel hbad tags
    ([], []) hwf hex
  simp [getTagCommits, haux]

/-- A regex engine on which every pattern is malformed. -/
def engineBad : String → Option (String → List String) := fun _ => none

/-- Repository with a malformed pattern and no tags at all. -/
def badPatternCtx : Ctx := ⟨engineBad, argsDefault, fun _ => none, fun _ => 0, fun _ => []⟩

/-- Counterexample to claim C6: with a malformed pattern but zero enumerated
tags, attribution succeeds (empty map, empty name list, exit 0) — the
pattern is compiled only inside `add_if_matches_regex`, which is never
reached, so a malformed pattern does not always abort the run. -/
theorem malformed_pattern_successful_run :
    badPatternCtx.engine badPatternCtx.args.jiraRegex = none ∧
      getTagCommits badPatternCtx (some 1000) 100 10 [] = some (.ok ([], [])) :=
  ⟨rfl, rfl⟩

/-- Repository for the malformed-pattern witness: one recent tag whose
target commit (id 0) is 50 seconds old against a 100-second cutoff. -/
def badPatternRecentCtx : Ctx :=
  ⟨engineBad, argsDefault, fun _ => some "AB-1", fun _ => (950 : Int), fun _ => []⟩

/-- Witness for `malformed_pattern_aborts`. -/
theorem malformed_pattern_aborts_witness :
    badPatternRecentCtx.engine badPatternRecentCtx.args.jiraRegex = none ∧
      getTagCommits badPatternRecentCtx (some 1000) 100 10 [⟨some "v1", some 0⟩] =
        some (.error .Regex) :=
  ⟨rfl, malformed_pattern_aborts badPatternRecentCtx (some 1000) 100 10
    [⟨some "v1", some 0⟩] rfl
    (by
      intro t ht
      simp only [List.mem_singleton] at ht
      subst ht
      exact ⟨by simp, 0, rfl, by decide⟩)
    ⟨⟨some "v1", some 0⟩, by simp, 0, rfl, by decide⟩⟩

/-- Claim C9: `get_tags` unwraps every `find_tag` result, so a repository
with any enumerated tag id that does not resolve to an annotated tag object
(e.g. a lightweight tag) makes the enumeration panic — the run dies before
it can return through the `Git` error path (the function's type has no
error channel at all). -/
theorem unresolvable_tag_panics (tagIds : List Nat) (findTag : Nat → Option TagM)
    (h : ∃ id ∈ tagIds, findTag id = none) :
    getTags tagIds findTag = none := by
  induction tagIds with
  | nil => simp at h
  | cons id rest ih =>
    obtain ⟨j, hj, hnone⟩ := h
    rcases List.mem_cons.mp hj with rfl | hr
    · simp [getTags, hnone]
    · cases hfind : findTag id with
      | none => simp [getTags, hfind]
      | some t => simp [getTags, hfind, ih ⟨j, hr, hnone⟩]

/-- Witness for `unresolvable_tag_panics`: one tag id that resolves to
nothing. -/
theorem unresolvable_tag_panics_witness :
    (∃ id ∈ [5], (fun _ : Nat => (none : Option TagM)) id = none) ∧
      getTags [5] (fun _ => none) = none :=
  ⟨⟨5, by simp, rfl⟩, unresolvable_tag_panics [5] (fun _ => none) ⟨5, by simp, rfl⟩⟩
